import Mathlib

/-!
Shallow embedding of the graph engine in `src/graph.rs` of the text-game
repository (the `Graph`/`Node` types with uuid ids, a `LinkedHashMap` node
store, and the serde list codec).

Modelling conventions:
* `HashMap<EdgeElement, String>` (a node's edge map) is modelled as an
  association list `List (β × String)` whose insert replaces the value of an
  existing key in place and otherwise appends; lookup takes the first match.
  A `HashMap` holds at most one entry per key, which the replace-in-place
  insert preserves.
* `LinkedHashMap<String, NodeRef>` (the node store) is modelled as a
  `List (Node α β)` in insertion order, keyed by the `id` field; `lhmInsert`
  replaces an existing key in place (keeping its position) and otherwise
  appends at the back.
* `Uuid::new_v4()` is a random, collision-free id generator; it is modelled
  by passing the fresh id as an explicit argument to the operations that
  create nodes.
* Rust panics (the `self.nodes[&id]` index on a missing key, and the
  `&nodes[0]` index on an empty vector in `deserialize`) are modelled as
  `none` / the `crash` constructor, distinct from ordinary `Option` results
  the code itself returns.
-/

set_option autoImplicit false

namespace TextGame

variable {α β : Type}

/-- A node in a Graph: unique id, payload (`element` in the source) and a
map from edge labels to destination node ids (`src/graph.rs`, lines 16-25). -/
structure Node (α β : Type) where
  id : String
  element : α
  edges : List (β × String)
deriving Repr, DecidableEq

/-- `Node::new` (`src/graph.rs` lines 29-35): fresh id (from `Uuid::new_v4`,
modelled as the explicit `id` argument), the given element, empty edge map. -/
def Node.new (id : String) (element : α) : Node α β :=
  { id := id, element := element, edges := [] }

/-- `Node::edge_elements` (`src/graph.rs` lines 38-40): all edge labels. -/
def Node.edge_elements (n : Node α β) : List β :=
  n.edges.map Prod.fst

/-- `HashMap::insert` on the edge map: replace the value of an existing key in
place, otherwise add the entry. -/
def insertEntry [DecidableEq β] (edges : List (β × String)) (e : β) (nodeId : String) :
    List (β × String) :=
  if edges.any (fun p => decide (p.1 = e)) then
    edges.map (fun p => if p.1 = e then (e, nodeId) else p)
  else
    edges ++ [(e, nodeId)]

/-- `Node::insert_edge` (`src/graph.rs` lines 43-45): `self.edges.insert(element, node_id)`. -/
def Node.insert_edge [DecidableEq β] (n : Node α β) (e : β) (nodeId : String) : Node α β :=
  { n with edges := insertEntry n.edges e nodeId }

/-- `Node::node_for_edge_element` (`src/graph.rs` lines 49-54):
`self.edges.get(&element)`, cloned into an owned `Option<String>`. -/
def Node.node_for_edge_element [DecidableEq β] (n : Node α β) (e : β) : Option String :=
  (n.edges.find? (fun p => decide (p.1 = e))).map Prod.snd

/-- The `Graph` struct (`src/graph.rs` lines 62-66): root id, cursor id, and
the `LinkedHashMap` node store in insertion order. -/
structure Graph (α β : Type) where
  root_node_id : String
  current_node_id : String
  nodes : List (Node α β)
deriving Repr, DecidableEq

/-- `LinkedHashMap::insert` keyed by `Node.id`: an existing key keeps its
position and gets the new value; a new key is appended at the back. -/
def lhmInsert (store : List (Node α β)) (n : Node α β) : List (Node α β) :=
  if store.any (fun m => decide (m.id = n.id)) then
    store.map (fun m => if m.id = n.id then n else m)
  else
    store ++ [n]

/-- Whether the store contains a node with the given id
(`LinkedHashMap::contains_key`). -/
def Graph.hasId (g : Graph α β) (id : String) : Bool :=
  g.nodes.any (fun m => decide (m.id = id))

/-- `LinkedHashMap` lookup by key: the entry with the given id, if any. -/
def Graph.findNode (g : Graph α β) (id : String) : Option (Node α β) :=
  g.nodes.find? (fun m => decide (m.id = id))

/-- `Graph::new` (`src/graph.rs` lines 69-79): a single-node graph whose root
and cursor are the new node's id (a fresh uuid, modelled as `rootId`). -/
def Graph.new (rootId : String) (root_node_element : α) : Graph α β :=
  { root_node_id := rootId
    current_node_id := rootId
    nodes := [Node.new rootId root_node_element] }

/-- `Graph::current_node` (`src/graph.rs` lines 82-84): `self.nodes[&self.current_node_id]`.
The Rust index panics when the key is absent; that is the `none` case. -/
def Graph.current_node (g : Graph α β) : Option (Node α β) :=
  g.findNode g.current_node_id

/-- In-place update of every store entry with the given key (for a map the key
is unique). Used to model mutation through the `Rc<RefCell<Node>>` returned by
`current_node`. -/
def updAt (store : List (Node α β)) (id : String) (f : Node α β → Node α β) :
    List (Node α β) :=
  store.map (fun m => if m.id = id then f m else m)

/-- Mutation of the current node (`self.current_node().borrow_mut()`):
`none` models the panic of the index when the cursor id is absent. -/
def Graph.modifyCurrent (g : Graph α β) (f : Node α β → Node α β) :
    Option (Graph α β) :=
  if g.hasId g.current_node_id then
    some { g with nodes := updAt g.nodes g.current_node_id f }
  else
    none

/-- `Graph::insert_edge_to_new_node` (`src/graph.rs` lines 88-94): create the
new node (fresh uuid modelled as `newId`), add an edge from the current node to
it, append it to the store, return its id. -/
def Graph.insert_edge_to_new_node [DecidableEq β] (g : Graph α β) (edge : β)
    (node : α) (newId : String) : Option (Graph α β × String) :=
  match g.modifyCurrent (fun n => n.insert_edge edge newId) with
  | none => none
  | some g1 => some ({ g1 with nodes := lhmInsert g1.nodes (Node.new newId node) }, newId)

/-- `Graph::insert_edge_to_existing_node` (`src/graph.rs` lines 97-99): add an
edge from the current node to `node_id`; the target id is not validated. -/
def Graph.insert_edge_to_existing_node [DecidableEq β] (g : Graph α β) (edge : β)
    (node_id : String) : Option (Graph α β) :=
  g.modifyCurrent (fun n => n.insert_edge edge node_id)

/-- `Graph::nodes` (`src/graph.rs` lines 102-105): all nodes in insertion order. -/
def Graph.nodesList (g : Graph α β) : List (Node α β) :=
  g.nodes

/-- `Graph::traverse` (`src/graph.rs` lines 109-125): look up the edge on the
current node; on a match set the cursor to the destination and return that
node, otherwise return `None` (the inner `none`) leaving the graph unchanged.
The outer `none` models the panics of `current_node` on a missing key. -/
def Graph.traverse [DecidableEq β] (g : Graph α β) (edge_element : β) :
    Option (Graph α β × Option (Node α β)) :=
  match g.current_node with
  | none => none
  | some cur =>
    match cur.node_for_edge_element edge_element with
    | none => some (g, none)
    | some matched_node =>
      match Graph.current_node { g with current_node_id := matched_node } with
      | none => none
      | some n => some ({ g with current_node_id := matched_node }, some n)

/-- `Graph::reset` (`src/graph.rs` lines 128-130): set the cursor to the root id. -/
def Graph.reset (g : Graph α β) : Graph α β :=
  { g with current_node_id := g.root_node_id }

/-- `impl Serialize for Graph` (`src/graph.rs` lines 135-146): the persisted
form is the sequence of node records in store (insertion) order. -/
def Graph.serialize (g : Graph α β) : List (Node α β) :=
  g.nodes

/-- Result of `deserialize`: `crash` models the `&nodes[0]` index-out-of-bounds
panic on an empty record list. -/
inductive DeserializeResult (α β : Type) where
  | crash : DeserializeResult α β
  | ok : Graph α β → DeserializeResult α β
deriving Repr, DecidableEq

/-- `impl Deserialize for Graph` (`src/graph.rs` lines 176-198): rebuild the
store by inserting every record into a fresh `LinkedHashMap`; the first
record's id becomes both root and cursor. On an empty list `&nodes[0]`
panics (the code's own TODO admits the missing empty check). -/
def Graph.deserialize (records : List (Node α β)) : DeserializeResult α β :=
  match records with
  | [] => DeserializeResult.crash
  | r :: _ =>
    DeserializeResult.ok
      { root_node_id := r.id
        current_node_id := r.id
        nodes := records.foldl lhmInsert [] }

/-- A public operation on a graph, used to state properties that quantify over
every operation of the `Graph` API. -/
inductive GraphOp (α β : Type) where
  | insertEdgeToNewNode (edge : β) (element : α) (newId : String)
  | insertEdgeToExistingNode (edge : β) (node_id : String)
  | traverseOp (edge : β)
  | resetOp
  | currentNodeOp
  | nodesOp
deriving Repr, DecidableEq

/-- The graph state after running one public operation; `none` models a panic. -/
def Graph.apply [DecidableEq β] (g : Graph α β) : GraphOp α β → Option (Graph α β)
  | GraphOp.insertEdgeToNewNode e a newId =>
      (g.insert_edge_to_new_node e a newId).map Prod.fst
  | GraphOp.insertEdgeToExistingNode e nodeId =>
      g.insert_edge_to_existing_node e nodeId
  | GraphOp.traverseOp e => (g.traverse e).map Prod.fst
  | GraphOp.resetOp => some g.reset
  | GraphOp.currentNodeOp => g.current_node.map (fun _ => g)
  | GraphOp.nodesOp => some g

/-- The documented precondition of an operation (§4.3 of the spec): the target
id of `insert_edge_to_existing_node` must name a node already in the store. -/
def GraphOp.ok (g : Graph α β) : GraphOp α β → Prop
  | GraphOp.insertEdgeToExistingNode _ nodeId => g.hasId nodeId = true
  | _ => True

instance (g : Graph α β) (op : GraphOp α β) : Decidable (op.ok g) :=
  match op with
  | GraphOp.insertEdgeToNewNode _ _ _ => inferInstanceAs (Decidable True)
  | GraphOp.insertEdgeToExistingNode _ nodeId =>
      inferInstanceAs (Decidable (g.hasId nodeId = true))
  | GraphOp.traverseOp _ => inferInstanceAs (Decidable True)
  | GraphOp.resetOp => inferInstanceAs (Decidable True)
  | GraphOp.currentNodeOp => inferInstanceAs (Decidable True)
  | GraphOp.nodesOp => inferInstanceAs (Decidable True)

/-- Invariant 1 of the spec: every edge destination, the root id and the
cursor id name a node present in the store. -/
def Graph.closed (g : Graph α β) : Prop :=
  g.root_node_id ∈ g.nodes.map Node.id ∧
  g.current_node_id ∈ g.nodes.map Node.id ∧
  ∀ n ∈ g.nodes, ∀ p ∈ n.edges, p.2 ∈ g.nodes.map Node.id

instance [DecidableEq β] (g : Graph α β) : Decidable g.closed := by
  unfold Graph.closed
  infer_instance

/-! Concrete fixtures used to evaluate the definitions on explicit inputs. -/

/-- A concrete node: a room with one edge to the node with id `b`. -/
def nodeA : Node String String := Node.mk "r" "Room A" [("north", "b")]

/-- A concrete node with no outgoing edges. -/
def nodeB : Node String String := Node.mk "b" "Room B" []

/-- A two-node graph whose cursor has been moved off the root. -/
def gAway : Graph String String := Graph.mk "r" "b" [nodeA, nodeB]

/-- A two-node graph with the cursor at the root. -/
def gHome : Graph String String := Graph.mk "r" "r" [nodeA, nodeB]

/-- `gHome` after `insert_edge_to_existing_node "south" "r"`. -/
def gHomeSouth : Graph String String :=
  Graph.mk "r" "r" [Node.mk "r" "Room A" [("north", "b"), ("south", "r")], nodeB]

/-- The one-node graph after `insert_edge_to_existing_node "north" "bogus"`:
its only node carries an edge to an id that is not in the store. -/
def gBad : Graph String String :=
  Graph.mk "r" "r" [Node.mk "r" "Room A" [("north", "bogus")]]

/-- `gHome` after `insert_edge_to_new_node "south" "Room C" "c"`. -/
def gHomeC : Graph String String :=
  Graph.mk "r" "r"
    [Node.mk "r" "Room A" [("north", "b"), ("south", "c")], nodeB,
      Node.mk "c" "Room C" []]

/-- The state `insert_edge_to_new_node` produces when the new id is fresh:
the current node gains the edge and the new node is appended at the back. -/
def Graph.afterInsertNew [DecidableEq β] (g : Graph α β) (e : β) (a : α)
    (newId : String) : Graph α β :=
  { g with
    nodes := updAt g.nodes g.current_node_id (fun n => n.insert_edge e newId)
      ++ [Node.new newId a] }

/-! Helper lemmas about the edge map (the `HashMap<EdgeElement, String>` model). -/

theorem insert_edge_id [DecidableEq β] (n : Node α β) (e : β) (i : String) :
    (n.insert_edge e i).id = n.id := rfl

theorem insert_edge_edges [DecidableEq β] (n : Node α β) (e : β) (i : String) :
    (n.insert_edge e i).edges = insertEntry n.edges e i := rfl

theorem find?_replace_self [DecidableEq β] (l : List (β × String)) (e : β) (i : String) :
    (l.map (fun p => if p.1 = e then (e, i) else p)).find? (fun p => decide (p.1 = e)) =
      if l.any (fun p => decide (p.1 = e)) then some (e, i) else none := by
  induction l with
  | nil => simp
  | cons a t ih =>
    by_cases h : a.1 = e
    · simp [h]
    · rw [List.map_cons, if_neg h, List.find?_cons_of_neg _ (by simp [h]), ih, List.any_cons,
        decide_eq_false h, Bool.false_or]

theorem find?_insertEntry_self [DecidableEq β] (l : List (β × String)) (e : β) (i : String) :
    (insertEntry l e i).find? (fun p => decide (p.1 = e)) = some (e, i) := by
  unfold insertEntry
  by_cases h : l.any (fun p => decide (p.1 = e)) = true
  · rw [if_pos h, find?_replace_self, if_pos h]
  · rw [if_neg h, List.find?_append]
    have hnone : l.find? (fun p => decide (p.1 = e)) = none := by
      rw [List.find?_eq_none]
      intro x hx hpx
      exact h (List.any_eq_true.mpr ⟨x, hx, hpx⟩)
    simp [hnone]

theorem node_for_edge_element_insert_self [DecidableEq β] (n : Node α β) (e : β) (i : String) :
    (n.insert_edge e i).node_for_edge_element e = some i := by
  unfold Node.node_for_edge_element
  rw [insert_edge_edges, find?_insertEntry_self]
  rfl

theorem keys_replace [DecidableEq β] (l : List (β × String)) (e : β) (i : String) :
    (l.map (fun p => if p.1 = e then (e, i) else p)).map Prod.fst = l.map Prod.fst := by
  induction l with
  | nil => rfl
  | cons a t ih =>
    by_cases h : a.1 = e <;> simp [h, ih]

theorem replace_of_no_key [DecidableEq β] (l : List (β × String)) (e : β) (i : String)
    (h : ∀ p ∈ l, p.1 ≠ e) : l.map (fun p => if p.1 = e then (e, i) else p) = l := by
  induction l with
  | nil => rfl
  | cons a t ih =>
    simp only [List.map_cons]
    rw [if_neg (h a (by simp)), ih (fun p hp => h p (by simp [hp]))]

theorem filter_of_no_key [DecidableEq β] (l : List (β × String)) (e : β)
    (h : ∀ p ∈ l, p.1 ≠ e) : l.filter (fun p => decide (p.1 = e)) = [] := by
  rw [List.filter_eq_nil_iff]
  intro p hp
  simp [h p hp]

theorem filter_replace [DecidableEq β] (l : List (β × String)) (e : β) (i : String)
    (hnd : (l.map Prod.fst).Nodup) :
    (l.map (fun p => if p.1 = e then (e, i) else p)).filter (fun p => decide (p.1 = e)) =
      if l.any (fun p => decide (p.1 = e)) then [(e, i)] else [] := by
  induction l with
  | nil => simp
  | cons a t ih =>
    simp only [List.map_cons, List.nodup_cons] at hnd
    by_cases h : a.1 = e
    · have hno : ∀ p ∈ t, p.1 ≠ e := by
        intro p hp hpe
        exact hnd.1 (by rw [h, ← hpe]; exact List.mem_map_of_mem _ hp)
      simp only [List.map_cons, if_pos h]
      rw [List.filter_cons_of_pos (by simp), replace_of_no_key t e i hno,
        filter_of_no_key t e hno]
      simp [h]
    · simp only [List.map_cons, if_neg h]
      rw [List.filter_cons_of_neg (by simp [h]), ih hnd.2, List.any_cons,
        decide_eq_false h, Bool.false_or]

theorem filter_insertEntry [DecidableEq β] (l : List (β × String)) (e : β) (i : String)
    (hnd : (l.map Prod.fst).Nodup) :
    (insertEntry l e i).filter (fun p => decide (p.1 = e)) = [(e, i)] := by
  unfold insertEntry
  by_cases h : l.any (fun p => decide (p.1 = e)) = true
  · rw [if_pos h, filter_replace l e i hnd, if_pos h]
  · rw [if_neg h, List.filter_append,
      filter_of_no_key l e (fun p hp hpe => h (List.any_eq_true.mpr ⟨p, hp, by simp [hpe]⟩))]
    simp

theorem insertEntry_keys_nodup [DecidableEq β] (l : List (β × String)) (e : β) (i : String)
    (hnd : (l.map Prod.fst).Nodup) : ((insertEntry l e i).map Prod.fst).Nodup := by
  unfold insertEntry
  by_cases h : l.any (fun p => decide (p.1 = e)) = true
  · rw [if_pos h, keys_replace]
    exact hnd
  · rw [if_neg h, List.map_append]
    refine List.Nodup.append hnd (by simp) ?_
    intro x hx hx'
    simp only [List.map_cons, List.map_nil, List.mem_singleton] at hx'
    subst hx'
    rcases List.mem_map.mp hx with ⟨p, hp, hpe⟩
    exact h (List.any_eq_true.mpr ⟨p, hp, by simp [hpe]⟩)

theorem mem_insertEntry [DecidableEq β] {l : List (β × String)} {e : β} {i : String}
    {p : β × String} (hp : p ∈ insertEntry l e i) : p ∈ l ∨ p = (e, i) := by
  unfold insertEntry at hp
  by_cases h : l.any (fun q => decide (q.1 = e)) = true
  · rw [if_pos h] at hp
    rcases List.mem_map.mp hp with ⟨q, hq, hqe⟩
    by_cases hc : q.1 = e
    · right
      rw [if_pos hc] at hqe
      exact hqe.symm
    · left
      rw [if_neg hc] at hqe
      exact hqe ▸ hq
  · rw [if_neg h] at hp
    rcases List.mem_append.mp hp with hp | hp
    · exact Or.inl hp
    · exact Or.inr (by simpa using hp)

theorem mem_insert_edge_edges [DecidableEq β] {n : Node α β} {e : β} {i : String}
    {p : β × String} (hp : p ∈ (n.insert_edge e i).edges) : p ∈ n.edges ∨ p = (e, i) :=
  mem_insertEntry hp

/-! Helper lemmas about the node store (the `LinkedHashMap<String, NodeRef>` model). -/

theorem updAt_map_id (store : List (Node α β)) (id : String) (f : Node α β → Node α β)
    (hf : ∀ n, (f n).id = n.id) :
    (updAt store id f).map Node.id = store.map Node.id := by
  unfold updAt
  induction store with
  | nil => rfl
  | cons a t ih =>
    by_cases h : a.id = id <;> simp [h, hf, ih]

theorem find?_updAt_self (store : List (Node α β)) (id : String) (f : Node α β → Node α β)
    (hf : ∀ n, (f n).id = n.id) :
    (updAt store id f).find? (fun m => decide (m.id = id)) =
      (store.find? (fun m => decide (m.id = id))).map f := by
  unfold updAt
  induction store with
  | nil => rfl
  | cons a t ih =>
    by_cases h : a.id = id
    · rw [List.map_cons, if_pos h, List.find?_cons_of_pos _ (by simp [hf, h]),
        List.find?_cons_of_pos _ (by simp [h])]
      rfl
    · rw [List.map_cons, if_neg h, List.find?_cons_of_neg _ (by simp [h]),
        List.find?_cons_of_neg _ (by simp [h]), ih]

theorem mem_updAt {store : List (Node α β)} {id : String} {f : Node α β → Node α β}
    {m : Node α β} (h : m ∈ updAt store id f) : ∃ q ∈ store, m = q ∨ m = f q := by
  rcases List.mem_map.mp h with ⟨q, hq, hqe⟩
  refine ⟨q, hq, ?_⟩
  by_cases hc : q.id = id
  · right
    rw [if_pos hc] at hqe
    exact hqe.symm
  · left
    rw [if_neg hc] at hqe
    exact hqe.symm

theorem map_id_replace (store : List (Node α β)) (n : Node α β) :
    (store.map (fun m => if m.id = n.id then n else m)).map Node.id = store.map Node.id := by
  induction store with
  | nil => rfl
  | cons a t ih =>
    by_cases h : a.id = n.id <;> simp [h, ih]

theorem mem_lhmInsert {store : List (Node α β)} {n m : Node α β}
    (h : m ∈ lhmInsert store n) : m ∈ store ∨ m = n := by
  unfold lhmInsert at h
  by_cases hany : store.any (fun q => decide (q.id = n.id)) = true
  · rw [if_pos hany] at h
    rcases List.mem_map.mp h with ⟨q, hq, hqe⟩
    by_cases hc : q.id = n.id
    · right
      rw [if_pos hc] at hqe
      exact hqe.symm
    · left
      rw [if_neg hc] at hqe
      exact hqe ▸ hq
  · rw [if_neg hany] at h
    rcases List.mem_append.mp h with h | h
    · exact Or.inl h
    · exact Or.inr (by simpa using h)

theorem map_id_lhmInsert (store : List (Node α β)) (n : Node α β) :
    (lhmInsert store n).map Node.id = store.map Node.id ∨
      (lhmInsert store n).map Node.id = store.map Node.id ++ [n.id] := by
  unfold lhmInsert
  by_cases hany : store.any (fun q => decide (q.id = n.id)) = true
  · left
    rw [if_pos hany, map_id_replace]
  · right
    rw [if_neg hany, List.map_append]
    rfl

theorem mem_map_id_lhmInsert {store : List (Node α β)} {n : Node α β} {x : String}
    (h : x ∈ store.map Node.id) : x ∈ (lhmInsert store n).map Node.id := by
  rcases map_id_lhmInsert store n with he | he <;> rw [he]
  · exact h
  · exact List.mem_append_left _ h

theorem self_mem_map_id_lhmInsert (store : List (Node α β)) (n : Node α β) :
    n.id ∈ (lhmInsert store n).map Node.id := by
  unfold lhmInsert
  by_cases hany : store.any (fun q => decide (q.id = n.id)) = true
  · rw [if_pos hany, map_id_replace]
    rcases List.any_eq_true.mp hany with ⟨q, hq, hqe⟩
    have : q.id = n.id := by simpa using hqe
    exact this ▸ List.mem_map_of_mem _ hq
  · rw [if_neg hany, List.map_append]
    exact List.mem_append_right _ (by simp)

theorem lhmInsert_fresh (store : List (Node α β)) (n : Node α β)
    (h : ∀ m ∈ store, m.id ≠ n.id) : lhmInsert store n = store ++ [n] := by
  unfold lhmInsert
  rw [if_neg]
  intro hc
  rcases List.any_eq_true.mp hc with ⟨m, hm, hd⟩
  exact h m hm (by simpa using hd)

theorem foldl_lhmInsert_eq_append (records : List (Node α β)) :
    ∀ acc : List (Node α β), ((acc ++ records).map Node.id).Nodup →
      records.foldl lhmInsert acc = acc ++ records := by
  induction records with
  | nil =>
    intro acc _
    simp
  | cons r t ih =>
    intro acc hnd
    have hnd' : (acc.map Node.id ++ (r.id :: t.map Node.id)).Nodup := by
      simpa using hnd
    rcases List.nodup_append.mp hnd' with ⟨_, _, hdisj⟩
    have h1 : ∀ m ∈ acc, m.id ≠ r.id := by
      intro m hm he
      exact hdisj (List.mem_map_of_mem _ hm) (by simp [he])
    have h2 : (((acc ++ [r]) ++ t).map Node.id).Nodup := by
      rw [List.append_assoc, List.singleton_append]
      exact hnd
    rw [List.foldl_cons, lhmInsert_fresh acc r h1, ih (acc ++ [r]) h2,
      List.append_assoc, List.singleton_append]

/-! Helper lemmas about graph lookups. -/

theorem findNode_mem {g : Graph α β} {id : String} {n : Node α β}
    (h : g.findNode id = some n) : n ∈ g.nodes ∧ n.id = id := by
  refine ⟨List.mem_of_find?_eq_some h, ?_⟩
  have := List.find?_some h
  simpa using this

theorem findNode_isSome_of_mem {g : Graph α β} {id : String}
    (h : id ∈ g.nodes.map Node.id) : ∃ c, g.findNode id = some c := by
  cases hf : g.findNode id with
  | some c => exact ⟨c, rfl⟩
  | none =>
    unfold Graph.findNode at hf
    rw [List.find?_eq_none] at hf
    rcases List.mem_map.mp h with ⟨n, hn, hid⟩
    exact absurd (by simp [hid]) (hf n hn)

theorem hasId_iff_mem {g : Graph α β} {id : String} :
    g.hasId id = true ↔ id ∈ g.nodes.map Node.id := by
  unfold Graph.hasId
  rw [List.any_eq_true, List.mem_map]
  constructor
  · rintro ⟨m, hm, hd⟩
    exact ⟨m, hm, by simpa using hd⟩
  · rintro ⟨m, hm, hd⟩
    exact ⟨m, hm, by simp [hd]⟩

theorem hasId_of_findNode {g : Graph α β} {id : String} {n : Node α β}
    (h : g.findNode id = some n) : g.hasId id = true := by
  rcases findNode_mem h with ⟨hm, hid⟩
  exact hasId_iff_mem.mpr (hid ▸ List.mem_map_of_mem _ hm)

theorem node_for_edge_element_mem [DecidableEq β] {c : Node α β} {e : β} {d : String}
    (h : c.node_for_edge_element e = some d) : ∃ p ∈ c.edges, p.2 = d := by
  unfold Node.node_for_edge_element at h
  cases hf : c.edges.find? (fun p => decide (p.1 = e)) with
  | none =>
    rw [hf] at h
    cases h
  | some p =>
    rw [hf] at h
    exact ⟨p, List.mem_of_find?_eq_some hf, by simpa using h⟩

/-! Characterizations of the mutating operations. -/

theorem modifyCurrent_of_hasId {g : Graph α β} {f : Node α β → Node α β}
    (h : g.hasId g.current_node_id = true) :
    g.modifyCurrent f = some { g with nodes := updAt g.nodes g.current_node_id f } := by
  unfold Graph.modifyCurrent
  rw [h]
  rfl

theorem insert_edge_to_existing_node_eq [DecidableEq β] (g : Graph α β) (e : β) (tid : String)
    (h : g.hasId g.current_node_id = true) :
    g.insert_edge_to_existing_node e tid =
      some { g with
        nodes := updAt g.nodes g.current_node_id (fun n => n.insert_edge e tid) } :=
  modifyCurrent_of_hasId h

theorem insert_edge_to_new_node_eq [DecidableEq β] (g : Graph α β) (e : β) (a : α)
    (newId : String) (h : g.hasId g.current_node_id = true) :
    g.insert_edge_to_new_node e a newId =
      some ({ g with
        nodes := lhmInsert (updAt g.nodes g.current_node_id (fun n => n.insert_edge e newId))
          (Node.new newId a) }, newId) := by
  unfold Graph.insert_edge_to_new_node
  rw [modifyCurrent_of_hasId h]

theorem traverse_no_edge [DecidableEq β] (g : Graph α β) (c : Node α β) (e : β)
    (hc : g.current_node = some c) (he : c.node_for_edge_element e = none) :
    g.traverse e = some (g, none) := by
  unfold Graph.traverse
  simp only [hc, he]

theorem traverse_edge [DecidableEq β] (g : Graph α β) (c : Node α β) (e : β) (d : String)
    (n : Node α β) (hc : g.current_node = some c) (he : c.node_for_edge_element e = some d)
    (hd : g.findNode d = some n) :
    g.traverse e = some ({ g with current_node_id := d }, some n) := by
  have hcn : Graph.current_node { g with current_node_id := d } = some n := hd
  unfold Graph.traverse
  simp only [hc, he, hcn]

theorem traverse_graph_cases [DecidableEq β] {g g' : Graph α β} {e : β}
    {res : Option (Node α β)} (h : g.traverse e = some (g', res)) :
    g'.nodes = g.nodes ∧ g'.root_node_id = g.root_node_id := by
  unfold Graph.traverse at h
  cases hcur : g.current_node with
  | none =>
    simp only [hcur] at h
    cases h
  | some c =>
    simp only [hcur] at h
    cases hlook : c.node_for_edge_element e with
    | none =>
      simp only [hlook] at h
      cases h
      exact ⟨rfl, rfl⟩
    | some d =>
      simp only [hlook] at h
      cases hd : Graph.current_node { g with current_node_id := d } with
      | none =>
        simp only [hd] at h
        cases h
      | some n =>
        simp only [hd] at h
        cases h
        exact ⟨rfl, rfl⟩

/-! The encode/decode round trip. -/

theorem deserialize_serialize (g : Graph α β) (r : Node α β) (rest : List (Node α β))
    (hg : g.nodes = r :: rest) (hnd : (g.nodes.map Node.id).Nodup) :
    Graph.deserialize (Graph.serialize g) =
      DeserializeResult.ok
        { root_node_id := r.id, current_node_id := r.id, nodes := g.nodes } := by
  have hfold : (r :: rest).foldl lhmInsert [] = r :: rest := by
    have h := foldl_lhmInsert_eq_append (r :: rest) []
      (by rw [List.nil_append, ← hg]; exact hnd)
    simpa using h
  have hstep : Graph.deserialize (r :: rest) =
      DeserializeResult.ok
        { root_node_id := r.id, current_node_id := r.id,
          nodes := (r :: rest).foldl lhmInsert [] } := rfl
  show Graph.deserialize g.nodes = _
  rw [hg, hstep, hfold, ← hg]

/-! Closure preservation. -/

theorem edges_closed_lift [DecidableEq β] {store store' : List (Node α β)} {e : β}
    {tid : String}
    (hclosed : ∀ n ∈ store, ∀ p ∈ n.edges, p.2 ∈ store.map Node.id)
    (hmem : ∀ m ∈ store', (∃ q ∈ store, m = q ∨ m = q.insert_edge e tid) ∨ m.edges = [])
    (hsub : ∀ x ∈ store.map Node.id, x ∈ store'.map Node.id)
    (htid : tid ∈ store'.map Node.id) :
    ∀ n ∈ store', ∀ p ∈ n.edges, p.2 ∈ store'.map Node.id := by
  intro n hn p hp
  rcases hmem n hn with h1 | hnil
  · rcases h1 with ⟨q, hq, hqe | hqe⟩
    · exact hsub _ (hclosed q hq p (hqe ▸ hp))
    · rcases mem_insert_edge_edges (hqe ▸ hp) with h | h
      · exact hsub _ (hclosed q hq p h)
      · rw [h]
        exact htid
  · rw [hnil] at hp
    exact absurd hp (List.not_mem_nil p)

/-! Lemmas about `insert_edge_to_new_node` with a fresh id. -/

theorem fresh_updAt [DecidableEq β] {g : Graph α β} {e : β} {newId : String}
    (hfresh : g.hasId newId = false) :
    ∀ m ∈ updAt g.nodes g.current_node_id (fun n => n.insert_edge e newId),
      m.id ≠ newId := by
  intro m hm heq
  have hmem : m.id ∈ g.nodes.map Node.id := by
    rw [← updAt_map_id g.nodes g.current_node_id (fun n => n.insert_edge e newId)
      (fun n => rfl)]
    exact List.mem_map_of_mem _ hm
  rw [heq] at hmem
  rw [hasId_iff_mem.mpr hmem] at hfresh
  cases hfresh

theorem insert_edge_to_new_node_fresh [DecidableEq β] (g : Graph α β) (e : β) (a : α)
    (newId : String) (hcid : g.hasId g.current_node_id = true)
    (hfresh : g.hasId newId = false) :
    g.insert_edge_to_new_node e a newId = some (g.afterInsertNew e a newId, newId) := by
  have hl : lhmInsert (updAt g.nodes g.current_node_id (fun n => n.insert_edge e newId))
      (Node.new newId a) =
      updAt g.nodes g.current_node_id (fun n => n.insert_edge e newId)
        ++ [Node.new newId a] :=
    lhmInsert_fresh _ _ (by intro m hm; exact fresh_updAt hfresh m hm)
  rw [insert_edge_to_new_node_eq g e a newId hcid, hl]
  rfl

theorem afterInsertNew_findNode_new [DecidableEq β] (g : Graph α β) (e : β) (a : α)
    (newId : String) (hfresh : g.hasId newId = false) :
    (g.afterInsertNew e a newId).findNode newId = some (Node.new newId a) := by
  show (updAt g.nodes g.current_node_id (fun n => n.insert_edge e newId)
      ++ [Node.new newId a]).find? (fun m => decide (m.id = newId)) = some (Node.new newId a)
  rw [List.find?_append]
  have h1 : (updAt g.nodes g.current_node_id (fun n => n.insert_edge e newId)).find?
      (fun m => decide (m.id = newId)) = none := by
    rw [List.find?_eq_none]
    intro x hx hpe
    exact fresh_updAt hfresh x hx (by simpa using hpe)
  rw [h1, Option.none_or, List.find?_cons_of_pos _ (by simp [Node.new])]

theorem afterInsertNew_current_node [DecidableEq β] (g : Graph α β) (c : Node α β) (e : β)
    (a : α) (newId : String) (hc : g.current_node = some c) :
    (g.afterInsertNew e a newId).current_node = some (c.insert_edge e newId) := by
  have hc' : g.nodes.find? (fun m => decide (m.id = g.current_node_id)) = some c := hc
  show (updAt g.nodes g.current_node_id (fun n => n.insert_edge e newId)
      ++ [Node.new newId a]).find? (fun m => decide (m.id = g.current_node_id))
      = some (c.insert_edge e newId)
  rw [List.find?_append,
    find?_updAt_self g.nodes g.current_node_id (fun n => n.insert_edge e newId)
      (fun n => rfl),
    hc', Option.map_some', Option.or_some]

/-! Which store each public operation leaves behind, at the level of node ids. -/

theorem apply_map_id_prefix [DecidableEq β] {g g' : Graph α β} {op : GraphOp α β}
    (happ : g.apply op = some g') :
    g.nodes.map Node.id <+: g'.nodes.map Node.id := by
  cases op with
  | insertEdgeToNewNode e a newId =>
    simp only [Graph.apply] at happ
    cases h : g.hasId g.current_node_id with
    | false =>
      unfold Graph.insert_edge_to_new_node Graph.modifyCurrent at happ
      rw [h] at happ
      simp at happ
    | true =>
      rw [insert_edge_to_new_node_eq g e a newId h, Option.map_some'] at happ
      have hg' : g' = { g with
          nodes := lhmInsert (updAt g.nodes g.current_node_id
            (fun n => n.insert_edge e newId)) (Node.new newId a) } :=
        (Option.some.inj happ).symm
      subst hg'
      have hupd := updAt_map_id g.nodes g.current_node_id
        (fun n => n.insert_edge e newId) (fun n => rfl)
      rcases map_id_lhmInsert (updAt g.nodes g.current_node_id
          (fun n => n.insert_edge e newId)) (Node.new newId a) with he | he
      · show g.nodes.map Node.id <+: (lhmInsert (updAt g.nodes g.current_node_id
          (fun n => n.insert_edge e newId)) (Node.new newId a)).map Node.id
        rw [he, hupd]
      · show g.nodes.map Node.id <+: (lhmInsert (updAt g.nodes g.current_node_id
          (fun n => n.insert_edge e newId)) (Node.new newId a)).map Node.id
        rw [he, hupd]
        exact List.prefix_append _ _
  | insertEdgeToExistingNode e tid =>
    simp only [Graph.apply] at happ
    cases h : g.hasId g.current_node_id with
    | false =>
      unfold Graph.insert_edge_to_existing_node Graph.modifyCurrent at happ
      rw [h] at happ
      simp at happ
    | true =>
      rw [insert_edge_to_existing_node_eq g e tid h] at happ
      have hg' : g' = { g with
          nodes := updAt g.nodes g.current_node_id (fun n => n.insert_edge e tid) } :=
        (Option.some.inj happ).symm
      subst hg'
      show g.nodes.map Node.id <+: (updAt g.nodes g.current_node_id
        (fun n => n.insert_edge e tid)).map Node.id
      rw [updAt_map_id g.nodes g.current_node_id (fun n => n.insert_edge e tid)
        (fun n => rfl)]
  | traverseOp e =>
    simp only [Graph.apply] at happ
    cases ht : g.traverse e with
    | none =>
      rw [ht] at happ
      simp at happ
    | some pr =>
      rw [ht, Option.map_some'] at happ
      have hg' : g' = pr.1 := (Option.some.inj happ).symm
      subst hg'
      have hpr : g.traverse e = some (pr.1, pr.2) := by rw [ht]
      rcases traverse_graph_cases hpr with ⟨h1, _⟩
      rw [h1]
  | resetOp =>
    simp only [Graph.apply] at happ
    have hg' : g' = g.reset := (Option.some.inj happ).symm
    subst hg'
    show g.nodes.map Node.id <+: g.nodes.map Node.id
    exact List.prefix_refl _
  | currentNodeOp =>
    simp only [Graph.apply] at happ
    cases hcn : g.current_node with
    | none =>
      rw [hcn] at happ
      simp at happ
    | some c =>
      rw [hcn, Option.map_some'] at happ
      have hg' : g' = g := (Option.some.inj happ).symm
      subst hg'
      exact List.prefix_refl _
  | nodesOp =>
    simp only [Graph.apply] at happ
    have hg' : g' = g := (Option.some.inj happ).symm
    subst hg'
    exact List.prefix_refl _

theorem apply_closed [DecidableEq β] {g g' : Graph α β} {op : GraphOp α β}
    (hg : g.closed) (hok : op.ok g) (happ : g.apply op = some g') :
    g'.closed := by
  rcases hg with ⟨hroot, hcur, hedges⟩
  have hcid : g.hasId g.current_node_id = true := hasId_iff_mem.mpr hcur
  cases op with
  | insertEdgeToNewNode e a newId =>
    simp only [Graph.apply] at happ
    rw [insert_edge_to_new_node_eq g e a newId hcid, Option.map_some'] at happ
    have hg' : g' = { g with nodes := lhmInsert (updAt g.nodes g.current_node_id
        (fun n => n.insert_edge e newId)) (Node.new newId a) } :=
      (Option.some.inj happ).symm
    subst hg'
    have hupd := updAt_map_id g.nodes g.current_node_id
      (fun n => n.insert_edge e newId) (fun n => rfl)
    have hsub : ∀ x ∈ g.nodes.map Node.id,
        x ∈ (lhmInsert (updAt g.nodes g.current_node_id
          (fun n => n.insert_edge e newId)) (Node.new newId a)).map Node.id := by
      intro x hx
      exact mem_map_id_lhmInsert (by rw [hupd]; exact hx)
    have htid : newId ∈ (lhmInsert (updAt g.nodes g.current_node_id
        (fun n => n.insert_edge e newId)) (Node.new newId a)).map Node.id :=
      self_mem_map_id_lhmInsert _ _
    refine ⟨hsub _ hroot, hsub _ hcur, ?_⟩
    refine edges_closed_lift (e := e) hedges ?_ hsub htid
    intro m hm
    rcases mem_lhmInsert hm with hm | hm
    · rcases mem_updAt hm with ⟨q, hq, hqe⟩
      exact Or.inl ⟨q, hq, hqe⟩
    · exact Or.inr (by rw [hm]; rfl)
  | insertEdgeToExistingNode e tid =>
    simp only [Graph.apply] at happ
    rw [insert_edge_to_existing_node_eq g e tid hcid] at happ
    have hg' : g' = { g with
        nodes := updAt g.nodes g.current_node_id
          (fun n => n.insert_edge e tid) } := (Option.some.inj happ).symm
    subst hg'
    have hupd := updAt_map_id g.nodes g.current_node_id (fun n => n.insert_edge e tid)
      (fun n => rfl)
    have hsub : ∀ x ∈ g.nodes.map Node.id, x ∈ (updAt g.nodes g.current_node_id
        (fun n => n.insert_edge e tid)).map Node.id := by
      intro x hx
      rw [hupd]
      exact hx
    have htid : tid ∈ (updAt g.nodes g.current_node_id
        (fun n => n.insert_edge e tid)).map Node.id := by
      rw [hupd]
      exact hasId_iff_mem.mp hok
    refine ⟨hsub _ hroot, hsub _ hcur, ?_⟩
    refine edges_closed_lift (e := e) hedges ?_ hsub htid
    intro m hm
    rcases mem_updAt hm with ⟨q, hq, hqe⟩
    exact Or.inl ⟨q, hq, hqe⟩
  | traverseOp e =>
    simp only [Graph.apply] at happ
    rcases findNode_isSome_of_mem hcur with ⟨c, hc⟩
    have hcn : g.current_node = some c := hc
    cases hlook : c.node_for_edge_element e with
    | none =>
      rw [traverse_no_edge g c e hcn hlook, Option.map_some'] at happ
      have hg' : g' = g := (Option.some.inj happ).symm
      subst hg'
      exact ⟨hroot, hcur, hedges⟩
    | some d =>
      have hdm : d ∈ g.nodes.map Node.id := by
        rcases node_for_edge_element_mem hlook with ⟨p, hp, hpd⟩
        rcases findNode_mem hc with ⟨hcm, _⟩
        rw [← hpd]
        exact hedges c hcm p hp
      rcases findNode_isSome_of_mem (g := { g with current_node_id := d }) hdm
        with ⟨n, hn⟩
      rw [traverse_edge g c e d n hcn hlook hn, Option.map_some'] at happ
      have hg' : g' = { g with current_node_id := d } := (Option.some.inj happ).symm
      subst hg'
      exact ⟨hroot, hdm, hedges⟩
  | resetOp =>
    simp only [Graph.apply] at happ
    have hg' : g' = g.reset := (Option.some.inj happ).symm
    subst hg'
    exact ⟨hroot, hroot, hedges⟩
  | currentNodeOp =>
    simp only [Graph.apply] at happ
    rcases findNode_isSome_of_mem hcur with ⟨c, hc⟩
    have hcn : g.current_node = some c := hc
    rw [hcn, Option.map_some'] at happ
    have hg' : g' = g := (Option.some.inj happ).symm
    subst hg'
    exact ⟨hroot, hcur, hedges⟩
  | nodesOp =>
    simp only [Graph.apply] at happ
    have hg' : g' = g := (Option.some.inj happ).symm
    subst hg'
    exact ⟨hroot, hcur, hedges⟩

/-! The claims. -/

/-- C1: for every graph with a nonempty store and distinct node ids, decoding
the encoding yields a graph with the very same node records (ids, payloads and
edge maps), whose `current_node_id` equals `root_node_id` and both equal the
id of the first encoded record — even when the cursor was off the root. -/
theorem C1_roundtrip (g : Graph α β) (r : Node α β) (rest : List (Node α β))
    (hg : g.nodes = r :: rest) (hnd : (g.nodes.map Node.id).Nodup) :
    Graph.deserialize (Graph.serialize g) =
      DeserializeResult.ok
        { root_node_id := r.id, current_node_id := r.id, nodes := g.nodes } :=
  deserialize_serialize g r rest hg hnd

/-- Witness for C1 on a concrete two-node graph whose cursor is off the root. -/
theorem C1_roundtrip_witness :
    gAway.current_node_id ≠ gAway.root_node_id ∧
    gAway.nodes = nodeA :: [nodeB] ∧
    (gAway.nodes.map Node.id).Nodup ∧
    Graph.deserialize (Graph.serialize gAway) =
      DeserializeResult.ok
        { root_node_id := nodeA.id, current_node_id := nodeA.id, nodes := gAway.nodes } :=
  ⟨by decide, by decide, by decide, C1_roundtrip gAway nodeA [nodeB] (by decide) (by decide)⟩

/-- C2 (amended): after every public operation run within its documented
contract — in particular `insert_edge_to_existing_node` called with a target
id already present in the store — every edge destination id, the root id and
the cursor id name a node present in the store; the graph produced by `new`
satisfies the invariant as well. Unrestricted `insert_edge_to_existing_node`
violates the invariant (see the counterexample). -/
theorem C2_invariant [DecidableEq β] (g g' : Graph α β) (op : GraphOp α β)
    (rootId : String) (a : α) (hg : g.closed) (hok : op.ok g)
    (happ : g.apply op = some g') :
    g'.closed ∧ (Graph.new rootId a : Graph α β).closed := by
  refine ⟨apply_closed hg hok happ, ?_, ?_, ?_⟩
  · simp [Graph.new, Node.new]
  · simp [Graph.new, Node.new]
  · intro n hn p hp
    simp only [Graph.new, Node.new, List.mem_singleton] at hn
    subst hn
    simp at hp

/-- Witness for C2 on a concrete closed graph and an in-contract operation. -/
theorem C2_invariant_witness :
    gHome.closed ∧ GraphOp.ok gHome (GraphOp.insertEdgeToExistingNode "south" "r") ∧
    gHome.apply (GraphOp.insertEdgeToExistingNode "south" "r") = some gHomeSouth ∧
    (gHomeSouth.closed ∧ (Graph.new "x" "p" : Graph String String).closed) :=
  ⟨by decide, by decide, by decide,
    C2_invariant gHome gHomeSouth (GraphOp.insertEdgeToExistingNode "south" "r")
      "x" "p" (by decide) (by decide) (by decide)⟩

/-- Counterexample to C2 as stated: `insert_edge_to_existing_node` with an id
absent from the store is a public operation after which a stored edge
destination (`"bogus"`) references no node in the store. -/
theorem C2_counterexample :
    (Graph.new "r" "Room A" : Graph String String).closed ∧
    (Graph.new "r" "Room A" : Graph String String).apply
      (GraphOp.insertEdgeToExistingNode "north" "bogus") = some gBad ∧
    ¬ gBad.closed :=
  ⟨by decide, by decide, by decide⟩

/-- C3: on the empty record sequence the deserializer does not return an error
value; it evaluates `&nodes[0]` on an empty vector and panics (the `crash`
outcome), where the spec promises `DecodeError::Empty`. The code's own TODO
comment records the missing empty-input check. -/
theorem C3_deserialize_empty_crashes :
    Graph.deserialize ([] : List (Node String String)) = DeserializeResult.crash :=
  rfl

/-- C4: when the label is absent from the current node's edges, `traverse`
returns no node and returns the graph unchanged — in particular
`current_node_id` is unchanged. -/
theorem C4_traverse_absent [DecidableEq β] (g : Graph α β) (c : Node α β) (e : β)
    (hc : g.current_node = some c) (he : c.node_for_edge_element e = none) :
    g.traverse e = some (g, none) :=
  traverse_no_edge g c e hc he

/-- Witness for C4: from the node `b` of the concrete graph there is no edge
labelled `"north"`. -/
theorem C4_traverse_absent_witness :
    gAway.current_node = some nodeB ∧
    nodeB.node_for_edge_element "north" = none ∧
    gAway.traverse "north" = some (gAway, none) :=
  ⟨by decide, by decide, C4_traverse_absent gAway nodeB "north" (by decide) (by decide)⟩

/-- C5: when the current node has an edge for the label, `traverse` sets
`current_node_id` to that edge's destination id and returns the stored node
with that id. -/
theorem C5_traverse_present [DecidableEq β] (g : Graph α β) (c : Node α β) (e : β)
    (d : String) (n : Node α β) (hc : g.current_node = some c)
    (he : c.node_for_edge_element e = some d) (hd : g.findNode d = some n) :
    g.traverse e = some ({ g with current_node_id := d }, some n) ∧ n.id = d :=
  ⟨traverse_edge g c e d n hc he hd, (findNode_mem hd).2⟩

/-- Witness for C5 on the concrete graph: traversing `"north"` from the root
moves the cursor to node `b` and returns it. -/
theorem C5_traverse_present_witness :
    gHome.current_node = some nodeA ∧
    nodeA.node_for_edge_element "north" = some "b" ∧
    gHome.findNode "b" = some nodeB ∧
    (gHome.traverse "north" = some ({ gHome with current_node_id := "b" }, some nodeB) ∧
      nodeB.id = "b") :=
  ⟨by decide, by decide, by decide,
    C5_traverse_present gHome nodeA "north" "b" nodeB (by decide) (by decide) (by decide)⟩

/-- C6: `insert_edge_to_new_node` creates a node with the given payload, adds
it to the store, adds an edge from the current node to it, leaves the cursor
unchanged and returns the new id; a subsequent `traverse` of that label moves
the cursor to the new node. -/
theorem C6_insert_edge_to_new_node [DecidableEq β] (g : Graph α β) (c : Node α β)
    (e : β) (a : α) (newId : String) (hc : g.current_node = some c)
    (hfresh : g.hasId newId = false) :
    ∃ g1, g.insert_edge_to_new_node e a newId = some (g1, newId) ∧
      g1.current_node_id = g.current_node_id ∧
      g1.root_node_id = g.root_node_id ∧
      g1.findNode newId = some (Node.new newId a) ∧
      (Node.new newId a : Node α β).element = a ∧
      g1.current_node = some (c.insert_edge e newId) ∧
      (c.insert_edge e newId).node_for_edge_element e = some newId ∧
      g1.traverse e = some ({ g1 with current_node_id := newId },
        some (Node.new newId a)) := by
  have hcid : g.hasId g.current_node_id = true := hasId_of_findNode hc
  have hfind := afterInsertNew_findNode_new g e a newId hfresh
  have hcurn := afterInsertNew_current_node g c e a newId hc
  exact ⟨g.afterInsertNew e a newId,
    insert_edge_to_new_node_fresh g e a newId hcid hfresh, rfl, rfl, hfind, rfl, hcurn,
    node_for_edge_element_insert_self c e newId,
    traverse_edge _ _ e newId _ hcurn (node_for_edge_element_insert_self c e newId) hfind⟩

/-- Witness for C6, mirroring the spec's concrete scenario: `"Room B"` is
connected to a fresh node `b` via `"north"` from the one-room graph. -/
theorem C6_insert_edge_to_new_node_witness :
    (Graph.new "r" "Room A" : Graph String String).current_node
        = some (Node.new "r" "Room A") ∧
    (Graph.new "r" "Room A" : Graph String String).hasId "b" = false ∧
    ∃ g1, (Graph.new "r" "Room A" : Graph String String).insert_edge_to_new_node
        "north" "Room B" "b" = some (g1, "b") ∧
      g1.current_node_id = (Graph.new "r" "Room A" : Graph String String).current_node_id ∧
      g1.root_node_id = (Graph.new "r" "Room A" : Graph String String).root_node_id ∧
      g1.findNode "b" = some (Node.new "b" "Room B") ∧
      (Node.new "b" "Room B" : Node String String).element = "Room B" ∧
      g1.current_node
        = some ((Node.new "r" "Room A" : Node String String).insert_edge "north" "b") ∧
      ((Node.new "r" "Room A" : Node String String).insert_edge "north" "b"
        ).node_for_edge_element "north" = some "b" ∧
      g1.traverse "north" = some ({ g1 with current_node_id := "b" },
        some (Node.new "b" "Room B")) :=
  ⟨by decide, by decide,
    C6_insert_edge_to_new_node (Graph.new "r" "Room A") (Node.new "r" "Room A")
      "north" "Room B" "b" (by decide) (by decide)⟩

/-- C7: inserting two edges with the same label leaves exactly one edge for
that label, pointing at the second destination; and inserting an edge never
creates a second entry for an existing label (the label list stays duplicate
free), so a node has at most one outgoing edge per distinct label. -/
theorem C7_last_write_wins [DecidableEq β] (n : Node α β) (L L' : β) (A B D : String)
    (hnd : n.edge_elements.Nodup) :
    ((n.insert_edge L A).insert_edge L B).edges.filter (fun p => decide (p.1 = L))
        = [(L, B)] ∧
    ((n.insert_edge L A).insert_edge L B).node_for_edge_element L = some B ∧
    (n.insert_edge L' D).edge_elements.Nodup := by
  have h1 : ((n.insert_edge L A).edges.map Prod.fst).Nodup :=
    insertEntry_keys_nodup n.edges L A hnd
  refine ⟨?_, node_for_edge_element_insert_self _ L B,
    insertEntry_keys_nodup n.edges L' D hnd⟩
  rw [insert_edge_edges (n.insert_edge L A)]
  exact filter_insertEntry _ L B h1

/-- Witness for C7 on a concrete node with no prior edges. -/
theorem C7_last_write_wins_witness :
    nodeB.edge_elements.Nodup ∧
    (((nodeB.insert_edge "east" "A").insert_edge "east" "B").edges.filter
        (fun p => decide (p.1 = "east")) = [("east", "B")] ∧
      ((nodeB.insert_edge "east" "A").insert_edge "east" "B").node_for_edge_element
        "east" = some "B" ∧
      (nodeB.insert_edge "west" "D").edge_elements.Nodup) :=
  ⟨by decide, C7_last_write_wins nodeB "east" "west" "A" "B" "D" (by decide)⟩

/-- C8: `reset` sets the cursor to the root id, always succeeds (it is a total
function on graphs) and is idempotent. -/
theorem C8_reset_idempotent (g : Graph α β) :
    g.reset.current_node_id = g.root_node_id ∧ g.reset.reset = g.reset :=
  ⟨rfl, rfl⟩

/-- C9: `nodes` enumerates the store in insertion order, `serialize` emits the
records in that same order, every public operation leaves the existing id
sequence a prefix of the new one (so the relative order never changes; new
nodes are appended), and the order survives an encode/decode round trip. -/
theorem C9_insertion_order [DecidableEq β] (g g' : Graph α β) (op : GraphOp α β)
    (r : Node α β) (rest : List (Node α β)) (hg : g.nodes = r :: rest)
    (hnd : (g.nodes.map Node.id).Nodup) (happ : g.apply op = some g') :
    g.nodesList = g.nodes ∧
    Graph.serialize g = g.nodesList ∧
    g.nodes.map Node.id <+: g'.nodes.map Node.id ∧
    Graph.deserialize (Graph.serialize g) =
      DeserializeResult.ok
        { root_node_id := r.id, current_node_id := r.id, nodes := g.nodes } :=
  ⟨rfl, rfl, apply_map_id_prefix happ, deserialize_serialize g r rest hg hnd⟩

/-- Witness for C9: adding a third room appends its id behind the ids of the
two existing rooms. -/
theorem C9_insertion_order_witness :
    gHome.nodes = nodeA :: [nodeB] ∧
    (gHome.nodes.map Node.id).Nodup ∧
    gHome.apply (GraphOp.insertEdgeToNewNode "south" "Room C" "c") = some gHomeC ∧
    (gHome.nodesList = gHome.nodes ∧
      Graph.serialize gHome = gHome.nodesList ∧
      gHome.nodes.map Node.id <+: gHomeC.nodes.map Node.id ∧
      Graph.deserialize (Graph.serialize gHome) =
        DeserializeResult.ok
          { root_node_id := nodeA.id, current_node_id := nodeA.id,
            nodes := gHome.nodes }) :=
  ⟨by decide, by decide, by decide,
    C9_insertion_order gHome gHomeC (GraphOp.insertEdgeToNewNode "south" "Room C" "c")
      nodeA [nodeB] (by decide) (by decide) (by decide)⟩

/-- C10: `traverse` and `reset` modify at most the cursor: the node store
(every id, payload and edge map) and the root id are unchanged. -/
theorem C10_frame [DecidableEq β] (g g' : Graph α β) (e : β) (res : Option (Node α β))
    (ht : g.traverse e = some (g', res)) :
    g'.nodes = g.nodes ∧ g'.root_node_id = g.root_node_id ∧
    g.reset.nodes = g.nodes ∧ g.reset.root_node_id = g.root_node_id := by
  rcases traverse_graph_cases ht with ⟨h1, h2⟩
  exact ⟨h1, h2, rfl, rfl⟩

/-- Witness for C10 on a concrete successful traversal. -/
theorem C10_frame_witness :
    gHome.traverse "north" = some (gAway, some nodeB) ∧
    (gAway.nodes = gHome.nodes ∧ gAway.root_node_id = gHome.root_node_id ∧
      gHome.reset.nodes = gHome.nodes ∧ gHome.reset.root_node_id = gHome.root_node_id) :=
  ⟨by decide, C10_frame gHome gAway "north" (some nodeB) (by decide)⟩

end TextGame
